import Mathlib

/-!
Verification of the natural-language specification of the
`navorite/language-tools` repository fragment against its two source files:

* `packages/typescript-plugin/src/utils.ts` — AST/text utilities
  (`isSvelteFilePath`, `ensureRealSvelteFilePath`, `isInGeneratedCode`,
  `findNodeAtSpan`, `gatherDescendants`, `hasNodeModule`, …)
* `packages/language-server/test/plugins/typescript/test-utils.ts` — the
  in-memory virtual `ts.System` (`createVirtualTsSystem`: `writeFile`,
  `readFile`, `fileExists`, `directoryExists`, `deleteFile`, `watchFile`,
  deferred watcher notification via zero-delay timers).

Strings are embedded as `List Char` (one `Char` per UTF-16 unit; every string
occurring in the sources and in the claims is surrogate-free, so JavaScript
string indexing coincides with `List Char` indexing).  JavaScript string
primitives (`substring` with its clamp-and-swap semantics, `indexOf`,
`lastIndexOf`, `includes`, `slice`, `startsWith`, `endsWith`) are modelled
exactly, including their `-1` conventions.
-/

/-! ## JavaScript string primitives over `List Char` -/

/-- Occurrence test: pattern `pat` occurs in `hay` starting at index `i`
(and fits entirely inside `hay`). -/
def occursAtB (pat hay : List Char) (i : Nat) : Bool :=
  pat.isPrefixOf (hay.drop i)

/-- Helper for JavaScript `lastIndexOf`: the largest index `i ≤ n` at which
`pat` occurs in `hay`, as an `Int`, `-1` when there is none. -/
def lastOccAux (hay pat : List Char) : Nat → Int
  | 0 => if occursAtB pat hay 0 then 0 else -1
  | n + 1 => if occursAtB pat hay (n + 1) then ((n + 1 : Nat) : Int) else lastOccAux hay pat n

/-- JavaScript `hay.lastIndexOf(pat)` (no position argument): index of the
last full occurrence of `pat` in `hay`, `-1` when there is none. -/
def jsLastIndexOf (hay pat : List Char) : Int :=
  lastOccAux hay pat hay.length

/-- JavaScript `hay.lastIndexOf(pat, pos)`: index of the last occurrence of
`pat` starting at an index `≤ pos`, `-1` when there is none. -/
def jsLastIndexOfPos (hay pat : List Char) (pos : Nat) : Int :=
  lastOccAux hay pat (min pos hay.length)

/-- First index `≥ 0` of character `c` in a list, as `Option`. -/
def findCharIdx (c : Char) : List Char → Option Nat
  | [] => none
  | x :: xs => if x = c then some 0 else (findCharIdx c xs).map (· + 1)

/-- JavaScript `text.indexOf(c, from)` for a single character `c`:
first index `≥ from` holding `c`, `-1` when there is none. -/
def jsIndexOfFrom (text : List Char) (c : Char) (start : Nat) : Int :=
  match findCharIdx c (text.drop start) with
  | some j => ((start + j : Nat) : Int)
  | none => -1

/-- Clamp an `Int` into `[0, len]`, as JavaScript `substring` does with its
arguments. -/
def jsClamp (len : Nat) (i : Int) : Nat :=
  if i < 0 then 0 else min i.toNat len

/-- JavaScript `text.substring(a, b)`: both arguments clamped into
`[0, length]`, then swapped if necessary, then the slice is taken. -/
def jsSubstring (text : List Char) (a b : Int) : List Char :=
  let a' := jsClamp text.length a
  let b' := jsClamp text.length b
  (text.take (max a' b')).drop (min a' b')

/-- JavaScript `hay.includes(pat)`: substring containment test. -/
def jsIncludes (hay pat : List Char) : Bool :=
  match hay with
  | [] => pat.isPrefixOf ([] : List Char)
  | _ :: t => pat.isPrefixOf hay || jsIncludes t pat

/-! ### Basic facts about the primitives -/

theorem occursAtB_true_iff {pat hay : List Char} {i : Nat} :
    occursAtB pat hay i = true ↔ pat <+: hay.drop i := by
  simp [occursAtB]

theorem occursAtB_length_le {pat hay : List Char} {i : Nat}
    (hne : pat ≠ []) (h : occursAtB pat hay i = true) :
    i + pat.length ≤ hay.length := by
  have hp : pat <+: hay.drop i := occursAtB_true_iff.mp h
  have hl : pat.length ≤ (hay.drop i).length := hp.length_le
  have hpos : 0 < pat.length := List.length_pos.mpr hne
  simp [List.length_drop] at hl
  omega

theorem jsIncludes_true_iff {hay pat : List Char} :
    jsIncludes hay pat = true ↔ ∃ i, occursAtB pat hay i = true := by
  induction hay with
  | nil =>
    simp only [jsIncludes]
    constructor
    · intro h
      exact ⟨0, by simpa [occursAtB] using h⟩
    · rintro ⟨i, hi⟩
      simpa [occursAtB] using hi
  | cons x t ih =>
    simp only [jsIncludes, Bool.or_eq_true, ih]
    constructor
    · rintro (h | ⟨i, hi⟩)
      · exact ⟨0, by simpa [occursAtB] using h⟩
      · exact ⟨i + 1, by simpa [occursAtB] using hi⟩
    · rintro ⟨i, hi⟩
      cases i with
      | zero => exact Or.inl (by simpa [occursAtB] using hi)
      | succ j => exact Or.inr ⟨j, by simpa [occursAtB] using hi⟩

theorem lastOccAux_nonneg_occurs {hay pat : List Char} {n : Nat}
    (h : 0 ≤ lastOccAux hay pat n) :
    occursAtB pat hay (lastOccAux hay pat n).toNat = true ∧
      (lastOccAux hay pat n).toNat ≤ n := by
  induction n with
  | zero =>
    by_cases h0 : occursAtB pat hay 0 = true
    · simp [lastOccAux, h0]
    · simp [lastOccAux, h0] at h
  | succ m ih =>
    by_cases h1 : occursAtB pat hay (m + 1) = true
    · simp [lastOccAux, h1]
    · simp only [lastOccAux, h1, if_false] at h ⊢
      rcases ih h with ⟨ho, hle⟩
      exact ⟨ho, Nat.le_succ_of_le hle⟩

theorem le_lastOccAux {hay pat : List Char} {n j : Nat}
    (ho : occursAtB pat hay j = true) (hjn : j ≤ n) :
    (j : Int) ≤ lastOccAux hay pat n := by
  induction n with
  | zero =>
    have hj0 : j = 0 := Nat.le_zero.mp hjn
    subst hj0
    simp [lastOccAux, ho]
  | succ m ih =>
    by_cases h1 : occursAtB pat hay (m + 1) = true
    · simp only [lastOccAux, h1, if_true]
      exact_mod_cast hjn
    · have hj : j ≤ m := by
        rcases Nat.lt_or_ge j (m + 1) with hlt | hge
        · omega
        · have : j = m + 1 := by omega
          subst this
          exact absurd ho h1
      simp only [lastOccAux, h1, if_false]
      exact ih hj

theorem lastOccAux_neg_no_occ {hay pat : List Char} {n : Nat}
    (h : lastOccAux hay pat n < 0) :
    ∀ j, j ≤ n → occursAtB pat hay j = false := by
  intro j hj
  by_contra hocc
  have ho : occursAtB pat hay j = true := by
    cases hres : occursAtB pat hay j
    · exact absurd hres hocc
    · rfl
  have := le_lastOccAux ho hj
  omega

theorem findCharIdx_some {c : Char} {l : List Char} {j : Nat}
    (h : findCharIdx c l = some j) :
    l.get? j = some c ∧ ∀ k, k < j → l.get? k ≠ some c := by
  induction l generalizing j with
  | nil => simp [findCharIdx] at h
  | cons x xs ih =>
    by_cases hx : x = c
    · simp [findCharIdx, hx] at h
      subst h
      subst hx
      exact ⟨rfl, by omega⟩
    · simp only [findCharIdx, hx, if_false, Option.map_eq_some'] at h
      rcases h with ⟨j', hj', rfl⟩
      rcases ih hj' with ⟨h1, h2⟩
      refine ⟨by simpa using h1, ?_⟩
      intro k hk
      cases k with
      | zero =>
        simp only [List.get?]
        intro hcontra
        exact hx (by injection hcontra)
      | succ k' =>
        have := h2 k' (by omega)
        simpa using this

theorem findCharIdx_none {c : Char} {l : List Char}
    (h : findCharIdx c l = none) : ∀ k, l.get? k ≠ some c := by
  induction l with
  | nil => intro k; simp
  | cons x xs ih =>
    by_cases hx : x = c
    · simp [findCharIdx, hx] at h
    · simp only [findCharIdx, hx, if_false, Option.map_eq_none'] at h
      intro k
      cases k with
      | zero =>
        simp only [List.get?]
        intro hcontra
        exact hx (by injection hcontra)
      | succ k' => simpa using ih h k'

/-! ## Svelte file path utilities (`typescript-plugin/src/utils.ts`) -/

/-- The literal `'.svelte'`. -/
def dotSvelte : List Char := ['.', 's', 'v', 'e', 'l', 't', 'e']

/-- The literal `'.svelte.ts'`. -/
def dotSvelteTs : List Char := ['.', 's', 'v', 'e', 'l', 't', 'e', '.', 't', 's']

/-- The literal `'.ts'`. -/
def dotTs : List Char := ['.', 't', 's']

/-- `isSvelteFilePath`: `filePath.endsWith('.svelte')`. -/
def isSvelteFilePath (filePath : List Char) : Bool :=
  dotSvelte.isSuffixOf filePath

/-- `isVirtualSvelteFilePath`: `filePath.endsWith('.svelte.ts')`. -/
def isVirtualSvelteFilePath (filePath : List Char) : Bool :=
  dotSvelteTs.isSuffixOf filePath

/-- `toRealSvelteFilePath`: `filePath.slice(0, -'.ts'.length)`. -/
def toRealSvelteFilePath (filePath : List Char) : List Char :=
  filePath.take (filePath.length - dotTs.length)

/-- `ensureRealSvelteFilePath`: strip the virtual suffix when present. -/
def ensureRealSvelteFilePath (filePath : List Char) : List Char :=
  if isVirtualSvelteFilePath filePath then toRealSvelteFilePath filePath else filePath

theorem toReal_of_virtual {p : List Char}
    (h : isVirtualSvelteFilePath p = true) :
    ∃ q, p = q ++ dotSvelteTs ∧ toRealSvelteFilePath p = q ++ dotSvelte := by
  have hs : dotSvelteTs <:+ p := by
    simpa [isVirtualSvelteFilePath] using h
  rcases hs with ⟨q, hq⟩
  refine ⟨q, hq.symm, ?_⟩
  rw [← hq]
  have hlen : (q ++ dotSvelteTs).length - dotTs.length = q.length + 7 := by
    simp [dotSvelteTs, dotTs]
  rw [toRealSvelteFilePath, hlen, List.take_append_eq_append_take]
  have h1 : q.length + 7 - q.length = 7 := by omega
  have h2 : q.take (q.length + 7) = q := List.take_of_length_le (by omega)
  rw [h1, h2]
  rfl

theorem not_virtual_append_dotSvelte (q : List Char) :
    isVirtualSvelteFilePath (q ++ dotSvelte) = false := by
  rw [isVirtualSvelteFilePath]
  cases hres : dotSvelteTs.isSuffixOf (q ++ dotSvelte)
  · rfl
  · exfalso
    have hs : dotSvelteTs <:+ q ++ dotSvelte := by
      exact List.isSuffixOf_iff_suffix.mp hres
    have hrev : dotSvelteTs.reverse <+: (q ++ dotSvelte).reverse :=
      List.reverse_prefix.mpr hs
    rw [List.reverse_append] at hrev
    have : dotSvelteTs.reverse <+: dotSvelte.reverse ++ q.reverse := hrev
    simp [dotSvelteTs, dotSvelte, List.cons_prefix_cons] at this

theorem svelte_append_dotSvelte (q : List Char) :
    isSvelteFilePath (q ++ dotSvelte) = true := by
  rw [isSvelteFilePath]
  exact List.isSuffixOf_iff_suffix.mpr ⟨q, rfl⟩

/-- C10: `ensureRealSvelteFilePath` is idempotent, its result never carries the
virtual suffix `'.svelte.ts'`, and on a virtual path its result is a Svelte
path (`'.svelte'` suffix). -/
theorem ensureRealSvelteFilePath_spec (p : List Char) :
    ensureRealSvelteFilePath (ensureRealSvelteFilePath p) = ensureRealSvelteFilePath p ∧
    isVirtualSvelteFilePath (ensureRealSvelteFilePath p) = false ∧
    (isVirtualSvelteFilePath p = true →
      isSvelteFilePath (ensureRealSvelteFilePath p) = true) := by
  by_cases hv : isVirtualSvelteFilePath p = true
  · rcases toReal_of_virtual hv with ⟨q, _, hreal⟩
    have he : ensureRealSvelteFilePath p = q ++ dotSvelte := by
      rw [ensureRealSvelteFilePath, if_pos hv, hreal]
    have hnv : isVirtualSvelteFilePath (ensureRealSvelteFilePath p) = false := by
      rw [he]; exact not_virtual_append_dotSvelte q
    refine ⟨?_, hnv, fun _ => ?_⟩
    · rw [ensureRealSvelteFilePath, hnv]
      simp
    · rw [he]; exact svelte_append_dotSvelte q
  · have hfalse : isVirtualSvelteFilePath p = false := by
      cases hres : isVirtualSvelteFilePath p
      · rfl
      · exact absurd hres hv
    have he : ensureRealSvelteFilePath p = p := by
      rw [ensureRealSvelteFilePath, hfalse]
      simp
    rw [he]
    exact ⟨by rw [ensureRealSvelteFilePath, hfalse]; simp, hfalse, fun h => absurd h hv⟩

/-- C10 witness: the theorem applied at the concrete virtual path
`'a.svelte.ts'`. -/
theorem ensureRealSvelteFilePath_spec_witness :
    isVirtualSvelteFilePath ('a' :: dotSvelteTs) = true ∧
    isSvelteFilePath (ensureRealSvelteFilePath ('a' :: dotSvelteTs)) = true :=
  ⟨by decide, (ensureRealSvelteFilePath_spec ('a' :: dotSvelteTs)).2.2 (by decide)⟩

/-! ## Generated-code region detection (`isInGeneratedCode`) -/

/-- The open marker literal. -/
def igStart : List Char :=
  ['/', '*', 'Ω', 'i', 'g', 'n', 'o', 'r', 'e', '_', 's', 't', 'a', 'r', 't', 'Ω', '*', '/']

/-- The close marker literal. -/
def igEnd : List Char :=
  ['/', '*', 'Ω', 'i', 'g', 'n', 'o', 'r', 'e', '_', 'e', 'n', 'd', 'Ω', '*', '/']

/-- `isInGeneratedCode(text, start, end)` from
`typescript-plugin/src/utils.ts`, embedded with the exact JavaScript string
semantics (`lastIndexOf` returning `-1`, `substring` clamp-and-swap). -/
def isInGeneratedCode (text : List Char) (start e : Nat) : Bool :=
  let lineStart := jsLastIndexOfPos text ['\n'] start
  let lineEnd := jsIndexOfFrom text '\n' e
  let w := jsSubstring text lineStart (start : Int)
  let lastStart := jsLastIndexOf w igStart
  let lastEnd := jsLastIndexOf w igEnd
  decide (lastEnd < lastStart) && jsIncludes (jsSubstring text (e : Int) lineEnd) igEnd

/-- No newline occurs in `text` at an index in `[a, b)`. -/
def noNl (text : List Char) (a b : Nat) : Prop :=
  ∀ k, k < text.length → a ≤ k → k < b → text.get? k ≠ some '\n'

/-- The claim's first condition: an open marker precedes `s` on the same line
and no close marker lies between that open marker and `s`. -/
def specOpenBefore (text : List Char) (s : Nat) : Prop :=
  ∃ i, i < text.length ∧ i + igStart.length ≤ s ∧ occursAtB igStart text i = true ∧
    noNl text i s ∧
    ∀ j, j < text.length → i ≤ j → j + igEnd.length ≤ s → occursAtB igEnd text j = false

/-- The claim's second condition: a close marker occurs between `e` and the
end of the line containing `e` (no newline between `e` and the marker). -/
def specCloseAfter (text : List Char) (e : Nat) : Prop :=
  ∃ j, j < text.length ∧ e ≤ j ∧ occursAtB igEnd text j = true ∧
    noNl text e (j + igEnd.length)

instance decidableNoNl (text : List Char) (a b : Nat) : Decidable (noNl text a b) := by
  unfold noNl
  infer_instance

instance decidableSpecOpenBefore (text : List Char) (s : Nat) :
    Decidable (specOpenBefore text s) := by
  unfold specOpenBefore
  infer_instance

instance decidableSpecCloseAfter (text : List Char) (e : Nat) :
    Decidable (specCloseAfter text e) := by
  unfold specCloseAfter
  infer_instance

theorem occursAtB_singleton_iff {c : Char} {text : List Char} {k : Nat} :
    occursAtB [c] text k = true ↔ text.get? k = some c := by
  have h0 : (text.drop k).get? 0 = text.get? k := by
    simpa using List.get?_drop text k 0
  rw [occursAtB, List.isPrefixOf_iff_prefix]
  cases hd : text.drop k with
  | nil =>
    rw [hd] at h0
    rw [← h0]
    simp
  | cons a t =>
    rw [hd] at h0
    rw [← h0]
    simp only [List.get?, List.cons_prefix_cons]
    constructor
    · rintro ⟨rfl, _⟩
      rfl
    · intro h
      injection h with h
      exact ⟨h.symm, List.nil_prefix⟩

theorem occursAtB_of_window {pat text : List Char} {lo hi i : Nat}
    (hne : pat ≠ [])
    (h : occursAtB pat ((text.take hi).drop lo) i = true) :
    occursAtB pat text (lo + i) = true ∧ lo + i + pat.length ≤ hi := by
  rw [occursAtB, List.drop_drop, List.drop_take] at h
  have hp := (List.prefix_take_iff).mp (by simpa using h)
  have hpos : 0 < pat.length := List.length_pos.mpr hne
  constructor
  · rw [occursAtB]
    simpa using hp.1
  · have := hp.2
    omega

theorem window_of_occursAtB {pat text : List Char} {lo hi j : Nat}
    (h : occursAtB pat text j = true) (hlo : lo ≤ j) (hhi : j + pat.length ≤ hi) :
    occursAtB pat ((text.take hi).drop lo) (j - lo) = true := by
  rw [occursAtB, List.drop_drop, List.drop_take]
  have hlj : lo + (j - lo) = j := by omega
  rw [hlj]
  rw [occursAtB] at h
  simp only [List.isPrefixOf_iff_prefix] at *
  exact (List.prefix_take_iff).mpr ⟨h, by omega⟩

theorem neg_one_le_lastOccAux (hay pat : List Char) (n : Nat) :
    -1 ≤ lastOccAux hay pat n := by
  induction n with
  | zero =>
    by_cases h : occursAtB pat hay 0 = true <;> simp [lastOccAux, h]
  | succ m ih =>
    by_cases h : occursAtB pat hay (m + 1) = true <;> simp [lastOccAux, h]
    · omega
    · exact ih

theorem jsClamp_natCast (len n : Nat) : jsClamp len (n : Int) = min n len := by
  simp [jsClamp]

/-- Concrete text for the C5 counterexample: a close marker, then an open
marker, then `abcd`, with no newline anywhere (length 38). -/
def genCE : List Char := igEnd ++ igStart ++ ['a', 'b', 'c', 'd']

/-- C5 counterexample: `isInGeneratedCode` returns `true` on `genCE` with
`start = 34`, `end = 36`, although no close marker occurs between position 36
and the end of the line containing it — when no newline follows `end`,
`substring(end, -1)` swaps its arguments and searches the text before `end`
instead. -/
theorem isInGeneratedCode_cex :
    isInGeneratedCode genCE 34 36 = true ∧ ¬ specCloseAfter genCE 36 := by
  constructor
  · decide
  · decide

theorem jsSubstring_of_clamp_le {text : List Char} {a b : Int}
    (h : jsClamp text.length a ≤ jsClamp text.length b) :
    jsSubstring text a b =
      (text.take (jsClamp text.length b)).drop (jsClamp text.length a) := by
  rw [jsSubstring, Nat.max_eq_right h, Nat.min_eq_left h]

theorem openBefore_of_lastIndex (text : List Char) (s : Nat)
    (hA : jsLastIndexOf (jsSubstring text (jsLastIndexOfPos text ['\n'] s) (s : Int)) igEnd <
          jsLastIndexOf (jsSubstring text (jsLastIndexOfPos text ['\n'] s) (s : Int)) igStart) :
    specOpenBefore text s := by
  set ls := jsLastIndexOfPos text ['\n'] s with hls
  have hlsdef : ls = lastOccAux text ['\n'] (min s text.length) := by
    rw [hls, jsLastIndexOfPos]
  set s' := min s text.length with hs'
  set lo := jsClamp text.length ls with hlo
  have hs'len : s' ≤ text.length := Nat.min_le_right _ _
  have hs's : s' ≤ s := Nat.min_le_left _ _
  have hlo_le : lo ≤ s' := by
    by_cases hneg : ls < 0
    · rw [hlo, jsClamp, if_pos hneg]
      omega
    · push_neg at hneg
      have hocc := lastOccAux_nonneg_occurs (hlsdef ▸ hneg)
      rw [hlo, jsClamp, if_neg (by omega)]
      have h2 : ls.toNat ≤ s' := by rw [hlsdef]; exact hocc.2
      omega
  have hsb : jsClamp text.length ((s : Nat) : Int) = s' := by
    rw [jsClamp_natCast]
  have hwin : jsSubstring text ls (s : Int) = (text.take s').drop lo := by
    rw [jsSubstring_of_clamp_le (by rw [hsb]; exact hlo_le), hsb]
  rw [hwin] at hA
  set w := (text.take s').drop lo with hwdef
  have hwlen : w.length = s' - lo := by
    rw [hwdef, List.length_drop, List.length_take, Nat.min_eq_left hs'len]
  have hminus1 : -1 ≤ jsLastIndexOf w igEnd := by
    rw [jsLastIndexOf]
    exact neg_one_le_lastOccAux _ _ _
  have hpos : 0 ≤ jsLastIndexOf w igStart := by omega
  have hpos' : 0 ≤ lastOccAux w igStart w.length := by rw [← jsLastIndexOf]; exact hpos
  obtain ⟨hoccW, hleW⟩ := lastOccAux_nonneg_occurs hpos'
  set iW := (lastOccAux w igStart w.length).toNat with hiW
  have hiWval : (jsLastIndexOf w igStart) = (iW : Int) := by
    rw [jsLastIndexOf, hiW, Int.toNat_of_nonneg hpos']
  have hoccW' : occursAtB igStart ((text.take s').drop lo) iW = true := hoccW
  obtain ⟨hoccT, hboundT⟩ := occursAtB_of_window (by decide : igStart ≠ []) hoccW'
  have higlen : igStart.length = 18 := by decide
  have hlenT := occursAtB_length_le (by decide : igStart ≠ []) hoccT
  refine ⟨lo + iW, by omega, by omega, hoccT, ?_, ?_⟩
  · intro k hk1 hk2 hk3 hcontra
    have hocck : occursAtB ['\n'] text k = true := occursAtB_singleton_iff.mpr hcontra
    have hkle : k ≤ min s text.length := by omega
    have hkls : (k : Int) ≤ ls := by
      rw [hlsdef]
      exact le_lastOccAux hocck hkle
    have hls0 : (0 : Int) ≤ ls := by omega
    have hlsle : ls.toNat ≤ s' := by
      rw [hlsdef]
      exact (lastOccAux_nonneg_occurs (hlsdef ▸ hls0)).2
    have hloeq : lo = ls.toNat := by
      rw [hlo, jsClamp, if_neg (by omega)]
      omega
    have hklo : k ≤ lo := by omega
    have hiW0 : iW = 0 := by omega
    have hkeq : k = lo := by omega
    have hpre : igStart <+: w := by
      have h1 := occursAtB_true_iff.mp hoccW
      rw [hiW0, List.drop_zero] at h1
      exact h1
    rcases hpre with ⟨t, ht⟩
    have hw0 : w.get? 0 = some '/' := by rw [← ht]; rfl
    have hlt : lo < s' := by omega
    have hw0' : w.get? 0 = text.get? lo := by
      rw [hwdef]
      have h1 : ((text.take s').drop lo).get? 0 = (text.take s').get? lo := by
        have := List.get?_drop (text.take s') lo 0
        simpa using this
      rw [h1, List.get?_take hlt]
    rw [hw0'] at hw0
    rw [hkeq] at hcontra
    rw [hw0] at hcontra
    exact absurd (by injection hcontra) (by decide : ¬ ('/' : Char) = '\n')
  · intro j hj1 hj2 hj3
    by_contra hocc
    have hT : occursAtB igEnd text j = true := by
      revert hocc
      cases occursAtB igEnd text j <;> simp
    have hlenE := occursAtB_length_le (by decide : igEnd ≠ []) hT
    have higElen : igEnd.length = 16 := by decide
    have hjle : j + igEnd.length ≤ s' := by
      rw [hs']
      exact Nat.le_min.mpr ⟨hj3, hlenE⟩
    have hwocc := window_of_occursAtB hT (by omega : lo ≤ j) hjle
    have hjw : j - lo ≤ w.length := by omega
    have hle2 : ((j - lo : Nat) : Int) ≤ jsLastIndexOf w igEnd := by
      rw [jsLastIndexOf]
      exact le_lastOccAux hwocc hjw
    omega

theorem closeAfter_of_includes (text : List Char) (e : Nat)
    (hB : jsIncludes (jsSubstring text (e : Int) (jsIndexOfFrom text '\n' e)) igEnd = true) :
    (0 ≤ jsIndexOfFrom text '\n' e →
      ∃ j, e ≤ j ∧ occursAtB igEnd text j = true ∧
        ((j + igEnd.length : Nat) : Int) ≤ jsIndexOfFrom text '\n' e) ∧
    (jsIndexOfFrom text '\n' e = -1 →
      ∃ j, j + igEnd.length ≤ min e text.length ∧ occursAtB igEnd text j = true) := by
  cases hf : findCharIdx '\n' (text.drop e) with
  | some j0 =>
    simp only [jsIndexOfFrom, hf] at hB ⊢
    rcases findCharIdx_some hf with ⟨hget, _⟩
    rw [List.get?_drop] at hget
    have hlt : e + j0 < text.length := by
      by_contra hge
      have hnone : text.get? (e + j0) = none := List.get?_eq_none.mpr (by omega)
      rw [hnone] at hget
      exact Option.noConfusion hget
    have hwin : jsSubstring text ((e : Nat) : Int) (((e + j0 : Nat) : Nat) : Int) =
        (text.take (e + j0)).drop e := by
      rw [jsSubstring_of_clamp_le, jsClamp_natCast, jsClamp_natCast,
        Nat.min_eq_left (by omega), Nat.min_eq_left (by omega)]
      rw [jsClamp_natCast, jsClamp_natCast]
      have h1 : min e text.length = e := Nat.min_eq_left (by omega)
      have h2 : min (e + j0) text.length = e + j0 := Nat.min_eq_left (by omega)
      rw [h1, h2]
      omega
    rw [hwin] at hB
    obtain ⟨i, hi⟩ := jsIncludes_true_iff.mp hB
    obtain ⟨hoccT, hbound⟩ := occursAtB_of_window (by decide : igEnd ≠ []) hi
    constructor
    · intro _
      exact ⟨e + i, by omega, hoccT, by push_cast; omega⟩
    · intro hcontra
      omega
  | none =>
    simp only [jsIndexOfFrom, hf] at hB ⊢
    constructor
    · intro h0
      omega
    · intro _
      have hc0 : jsClamp text.length (-1) = 0 := by
        rw [jsClamp, if_pos (by omega)]
      have hwin : jsSubstring text ((e : Nat) : Int) (-1) =
          (text.take (min e text.length)).drop 0 := by
        rw [jsSubstring, jsClamp_natCast, hc0,
          Nat.max_eq_left (by omega), Nat.min_eq_right (by omega)]
      rw [hwin] at hB
      obtain ⟨i, hi⟩ := jsIncludes_true_iff.mp hB
      obtain ⟨hoccT, hbound⟩ := occursAtB_of_window (by decide : igEnd ≠ []) hi
      exact ⟨i, by omega, by simpa using hoccT⟩

/-- C5 (amended): whenever `isInGeneratedCode(text, s, e)` returns `true`, an
open marker precedes `s` on the same line with no close marker between it and
`s`; and, when a newline exists at or after `e`, a close marker occurs between
`e` and that newline, while when no newline follows `e` a close marker merely
occurs in the text before `e` (artifact of `substring(end, -1)` swapping its
arguments). -/
theorem isInGeneratedCode_only_if (text : List Char) (s e : Nat)
    (h : isInGeneratedCode text s e = true) :
    specOpenBefore text s ∧
    (0 ≤ jsIndexOfFrom text '\n' e →
      ∃ j, e ≤ j ∧ occursAtB igEnd text j = true ∧
        ((j + igEnd.length : Nat) : Int) ≤ jsIndexOfFrom text '\n' e) ∧
    (jsIndexOfFrom text '\n' e = -1 →
      ∃ j, j + igEnd.length ≤ min e text.length ∧ occursAtB igEnd text j = true) := by
  simp only [isInGeneratedCode, Bool.and_eq_true, decide_eq_true_eq] at h
  exact ⟨openBefore_of_lastIndex text s h.1, closeAfter_of_includes text e h.2⟩

/-- Concrete generated-region text used for the C5 witness: an open marker,
one character, a close marker, then a newline. -/
def genOK : List Char := igStart ++ ['x'] ++ igEnd ++ ['\n']

/-- C5 witness: the amended theorem applied at a concrete input. -/
theorem isInGeneratedCode_only_if_witness :
    isInGeneratedCode genOK 18 19 = true ∧
    (specOpenBefore genOK 18 ∧
      (0 ≤ jsIndexOfFrom genOK '\n' 19 →
        ∃ j, 19 ≤ j ∧ occursAtB igEnd genOK j = true ∧
          ((j + igEnd.length : Nat) : Int) ≤ jsIndexOfFrom genOK '\n' 19) ∧
      (jsIndexOfFrom genOK '\n' 19 = -1 →
        ∃ j, j + igEnd.length ≤ min 19 genOK.length ∧ occursAtB igEnd genOK j = true)) :=
  ⟨by decide, isInGeneratedCode_only_if genOK 18 19 (by decide)⟩

/-! ## Syntax-tree model (`findNodeAtSpan`, `gatherDescendants`)

A `ts.Node` is modelled by its `getStart()` / `getEnd()` range, a label (so
that distinct nodes of a tree can be told apart), and its `getChildren()`
list. -/

mutual
inductive TsNode : Type where
  | mk (start fin lab : Nat) (children : TsNodeList)
inductive TsNodeList : Type where
  | nil
  | cons (child : TsNode) (rest : TsNodeList)
end

def TsNode.start : TsNode → Nat
  | .mk s _ _ _ => s

def TsNode.fin : TsNode → Nat
  | .mk _ f _ _ => f

def TsNode.lab : TsNode → Nat
  | .mk _ _ l _ => l

def TsNode.children : TsNode → TsNodeList
  | .mk _ _ _ cs => cs

mutual
def sizeN : TsNode → Nat
  | .mk _ _ _ cs => 1 + sizeL cs
def sizeL : TsNodeList → Nat
  | .nil => 0
  | .cons child rest => 1 + sizeN child + sizeL rest
end

/-- A span `{ start, length }`. -/
structure Span where
  start : Nat
  length : Nat

/-- `if (!predicate) … if (predicate(child)) …` collapsed: the optional
predicate accepts the node. -/
def predOk (pred : Option (TsNode → Bool)) (n : TsNode) : Bool :=
  match pred with
  | none => true
  | some p => p n

mutual
/-- `findNodeAtSpan(node, span, predicate?)` from
`typescript-plugin/src/utils.ts`: scans `node.getChildren()`. -/
def findNodeAtSpan (sp : Span) (pred : Option (TsNode → Bool)) : TsNode → Option TsNode
  | .mk _ _ _ cs => findInChildren sp pred cs
/-- The `for (const child of node.getChildren())` loop body of
`findNodeAtSpan`. -/
def findInChildren (sp : Span) (pred : Option (TsNode → Bool)) :
    TsNodeList → Option TsNode
  | .nil => none
  | .cons child rest =>
    if sp.start + sp.length ≤ child.start then none
    else if child.fin ≤ sp.start then findInChildren sp pred rest
    else if sp.start = child.start ∧ sp.start + sp.length = child.fin ∧
        predOk pred child = true then
      some child
    else
      match findNodeAtSpan sp pred child with
      | some found => some found
      | none => findInChildren sp pred rest
end

mutual
/-- Specification-side traversal: the first proper descendant of the root, in
document pre-order, whose range is exactly the span and which satisfies the
optional predicate (no pruning at all). -/
def firstExact (sp : Span) (pred : Option (TsNode → Bool)) : TsNode → Option TsNode
  | .mk _ _ _ cs => firstExactL sp pred cs
/-- Pre-order scan of a forest for the first exact span match. -/
def firstExactL (sp : Span) (pred : Option (TsNode → Bool)) :
    TsNodeList → Option TsNode
  | .nil => none
  | .cons child rest =>
    if sp.start = child.start ∧ sp.start + sp.length = child.fin ∧
        predOk pred child = true then
      some child
    else
      match firstExact sp pred child with
      | some found => some found
      | none => firstExactL sp pred rest
end

mutual
/-- Well-formedness of a compiler-produced tree: every node's range is
ordered and its children lie inside it in increasing, non-overlapping
position order. -/
def wfNode : TsNode → Bool
  | .mk s f _ cs => decide (s ≤ f) && wfChildren s f cs
/-- Children all lie within `[lo, hi]`, each child is well-formed, and each
child starts no earlier than the previous child's end. -/
def wfChildren (lo hi : Nat) : TsNodeList → Bool
  | .nil => true
  | .cons child rest =>
    decide (lo ≤ child.start) && decide (child.fin ≤ hi) && wfNode child &&
      wfChildren child.fin hi rest
end

mutual
/-- `gatherDescendants(node, predicate, dest)` from
`typescript-plugin/src/utils.ts`: push the node itself when it matches,
otherwise recurse into its children; the matched node's subtree is never
descended into. -/
def gatherDescendants (p : TsNode → Bool) : TsNode → List TsNode → List TsNode
  | .mk s f lab cs, dest =>
    if p (.mk s f lab cs) then dest ++ [TsNode.mk s f lab cs]
    else gatherList p cs dest
/-- The `for (const child of node.getChildren())` loop of
`gatherDescendants`. -/
def gatherList (p : TsNode → Bool) : TsNodeList → List TsNode → List TsNode
  | .nil, dest => dest
  | .cons child rest, dest => gatherList p rest (gatherDescendants p child dest)
end

mutual
/-- Specification-side positions: the tree positions (child-index paths) that
`gatherDescendants` collects. -/
def gatherPaths (p : TsNode → Bool) : TsNode → List (List Nat)
  | .mk s f lab cs =>
    if p (.mk s f lab cs) then [[]] else gatherPathsL p cs 0
/-- Paths collected from a forest, the head index starting at `i`. -/
def gatherPathsL (p : TsNode → Bool) : TsNodeList → Nat → List (List Nat)
  | .nil, _ => []
  | .cons child rest, i =>
    (gatherPaths p child).map (i :: ·) ++ gatherPathsL p rest (i + 1)
end

/-- The `i`-th element of a child list. -/
def nthChild : TsNodeList → Nat → Option TsNode
  | .nil, _ => none
  | .cons child _, 0 => some child
  | .cons _ rest, n + 1 => nthChild rest n

/-- The subtree of a node at a child-index path. -/
def subtreeAt : TsNode → List Nat → Option TsNode
  | n, [] => some n
  | n, i :: q => (nthChild n.children i).bind fun c => subtreeAt c q

/-- The subtree of a forest at a nonempty child-index path. -/
def subtreeAtF (cs : TsNodeList) : List Nat → Option TsNode
  | [] => none
  | i :: q => (nthChild cs i).bind fun c => subtreeAt c q

/-- Innermost counterexample node: exactly covers `[5, 10)`. -/
def ceInner : TsNode := .mk 5 10 2 .nil

/-- Middle counterexample node: also exactly covers `[5, 10)` and contains
`ceInner`. -/
def ceMid : TsNode := .mk 5 10 1 (.cons ceInner .nil)

/-- Counterexample root covering `[0, 20)`. -/
def ceRoot : TsNode := .mk 0 20 0 (.cons ceMid .nil)

/-- C2 counterexample: with nested nodes both exactly covering `[5, 10)`,
`findNodeAtSpan` returns the outer one (`ceMid`), not the deepest exact match
(`ceInner`, a child of the returned node with the same exact range). -/
theorem findNodeAtSpan_cex :
    findNodeAtSpan ⟨5, 5⟩ none ceRoot = some ceMid ∧
    ceMid.children = .cons ceInner .nil ∧
    ceInner.start = 5 ∧ ceInner.fin = 10 ∧ ceMid.lab ≠ ceInner.lab := by
  refine ⟨rfl, rfl, rfl, rfl, by decide⟩

mutual
theorem firstExact_none_low (sp : Span) (pred : Option (TsNode → Bool)) :
    ∀ (n : TsNode), wfNode n = true → 0 < sp.length →
      sp.start + sp.length ≤ n.start → firstExact sp pred n = none
  | .mk s f lab cs, hwf, hlen, hle => by
    rw [firstExact]
    simp only [wfNode, Bool.and_eq_true, decide_eq_true_eq] at hwf
    exact firstExactL_none_low sp pred s f cs hwf.2 hlen
      (le_trans hle (by simp [TsNode.start]))
theorem firstExactL_none_low (sp : Span) (pred : Option (TsNode → Bool)) :
    ∀ (lo hi : Nat) (cs : TsNodeList), wfChildren lo hi cs = true → 0 < sp.length →
      sp.start + sp.length ≤ lo → firstExactL sp pred cs = none
  | lo, hi, .nil, _, _, _ => rfl
  | lo, hi, .cons child rest, hwf, hlen, hle => by
    simp only [wfChildren, Bool.and_eq_true, decide_eq_true_eq] at hwf
    obtain ⟨⟨⟨h1, h2⟩, h3⟩, h4⟩ := hwf
    have hcf : child.start ≤ child.fin := by
      rcases child with ⟨s, f, lab, ccs⟩
      simp only [wfNode, Bool.and_eq_true, decide_eq_true_eq] at h3
      simpa [TsNode.start, TsNode.fin] using h3.1
    rw [firstExactL]
    have hnot : ¬ (sp.start = child.start ∧ sp.start + sp.length = child.fin ∧
        predOk pred child = true) := by
      rintro ⟨he, _, _⟩
      omega
    rw [if_neg hnot]
    rw [firstExact_none_low sp pred child h3 hlen (by omega)]
    exact firstExactL_none_low sp pred child.fin hi rest h4 hlen (by omega)
end

mutual
theorem firstExact_none_high (sp : Span) (pred : Option (TsNode → Bool)) :
    ∀ (n : TsNode), wfNode n = true → 0 < sp.length →
      n.fin ≤ sp.start → firstExact sp pred n = none
  | .mk s f lab cs, hwf, hlen, hle => by
    rw [firstExact]
    simp only [wfNode, Bool.and_eq_true, decide_eq_true_eq] at hwf
    exact firstExactL_none_high sp pred s f cs hwf.2 hlen
      (le_trans (by simp [TsNode.fin]) hle)
theorem firstExactL_none_high (sp : Span) (pred : Option (TsNode → Bool)) :
    ∀ (lo hi : Nat) (cs : TsNodeList), wfChildren lo hi cs = true → 0 < sp.length →
      hi ≤ sp.start → firstExactL sp pred cs = none
  | lo, hi, .nil, _, _, _ => rfl
  | lo, hi, .cons child rest, hwf, hlen, hle => by
    simp only [wfChildren, Bool.and_eq_true, decide_eq_true_eq] at hwf
    obtain ⟨⟨⟨h1, h2⟩, h3⟩, h4⟩ := hwf
    rw [firstExactL]
    have hnot : ¬ (sp.start = child.start ∧ sp.start + sp.length = child.fin ∧
        predOk pred child = true) := by
      rintro ⟨_, he, _⟩
      omega
    rw [if_neg hnot]
    rw [firstExact_none_high sp pred child h3 hlen (by omega)]
    exact firstExactL_none_high sp pred child.fin hi rest h4 hlen hle
end

mutual
theorem findAtSpan_eq_aux (sp : Span) (pred : Option (TsNode → Bool)) :
    ∀ (n : TsNode), wfNode n = true → 0 < sp.length →
      findNodeAtSpan sp pred n = firstExact sp pred n
  | .mk s f lab cs, hwf, hlen => by
    rw [findNodeAtSpan, firstExact]
    simp only [wfNode, Bool.and_eq_true, decide_eq_true_eq] at hwf
    exact findChildren_eq_aux sp pred s f cs hwf.2 hlen
theorem findChildren_eq_aux (sp : Span) (pred : Option (TsNode → Bool)) :
    ∀ (lo hi : Nat) (cs : TsNodeList), wfChildren lo hi cs = true → 0 < sp.length →
      findInChildren sp pred cs = firstExactL sp pred cs
  | lo, hi, .nil, _, _ => rfl
  | lo, hi, .cons child rest, hwf, hlen => by
    simp only [wfChildren, Bool.and_eq_true, decide_eq_true_eq] at hwf
    obtain ⟨⟨⟨h1, h2⟩, h3⟩, h4⟩ := hwf
    have hcf : child.start ≤ child.fin := by
      rcases child with ⟨s, f, lab, ccs⟩
      simp only [wfNode, Bool.and_eq_true, decide_eq_true_eq] at h3
      simpa [TsNode.start, TsNode.fin] using h3.1
    rw [findInChildren, firstExactL]
    by_cases hp1 : sp.start + sp.length ≤ child.start
    · rw [if_pos hp1]
      have hnot : ¬ (sp.start = child.start ∧ sp.start + sp.length = child.fin ∧
          predOk pred child = true) := by
        rintro ⟨he, _, _⟩
        omega
      rw [if_neg hnot]
      rw [firstExact_none_low sp pred child h3 hlen hp1]
      rw [firstExactL_none_low sp pred child.fin hi rest h4 hlen (by omega)]
    · rw [if_neg hp1]
      by_cases hp2 : child.fin ≤ sp.start
      · rw [if_pos hp2]
        have hnot : ¬ (sp.start = child.start ∧ sp.start + sp.length = child.fin ∧
            predOk pred child = true) := by
          rintro ⟨_, he, _⟩
          omega
        rw [if_neg hnot]
        rw [firstExact_none_high sp pred child h3 hlen hp2]
        exact findChildren_eq_aux sp pred child.fin hi rest h4 hlen
      · rw [if_neg hp2]
        by_cases hp3 : sp.start = child.start ∧ sp.start + sp.length = child.fin ∧
            predOk pred child = true
        · rw [if_pos hp3, if_pos hp3]
        · rw [if_neg hp3, if_neg hp3]
          rw [findAtSpan_eq_aux sp pred child h3 hlen]
          rw [findChildren_eq_aux sp pred child.fin hi rest h4 hlen]
end

/-- C2 (amended): on a well-formed tree (children ranges nested in their
parent and in increasing, non-overlapping order) and a span of positive
length, `findNodeAtSpan` returns exactly the first proper descendant of the
root, in document pre-order, whose range equals `[start, start + length)` and
which satisfies the optional predicate — the outermost such node when several
nested nodes share that exact range — and `none` when no such node exists. -/
theorem findNodeAtSpan_eq_firstExact (sp : Span) (pred : Option (TsNode → Bool))
    (n : TsNode) (hwf : wfNode n = true) (hlen : 0 < sp.length) :
    findNodeAtSpan sp pred n = firstExact sp pred n :=
  findAtSpan_eq_aux sp pred n hwf hlen

/-- C2 witness: the amended theorem applied to the concrete well-formed tree
`ceRoot` and the span `[5, 10)`. -/
theorem findNodeAtSpan_eq_firstExact_witness :
    wfNode ceRoot = true ∧ (0 : Nat) < (5 : Nat) ∧
    findNodeAtSpan ⟨5, 5⟩ none ceRoot = firstExact ⟨5, 5⟩ none ceRoot :=
  ⟨by decide, by decide, findNodeAtSpan_eq_firstExact ⟨5, 5⟩ none ceRoot (by decide) (by decide)⟩

mutual
theorem gatherDescendants_acc (p : TsNode → Bool) :
    ∀ (n : TsNode) (dest : List TsNode),
      gatherDescendants p n dest = dest ++ gatherDescendants p n []
  | .mk s f lab cs, dest => by
    rw [gatherDescendants, gatherDescendants]
    by_cases hp : p (.mk s f lab cs) = true
    · rw [if_pos hp, if_pos hp]
      simp
    · rw [if_neg hp, if_neg hp]
      exact gatherList_acc p cs dest
theorem gatherList_acc (p : TsNode → Bool) :
    ∀ (cs : TsNodeList) (dest : List TsNode),
      gatherList p cs dest = dest ++ gatherList p cs []
  | .nil, dest => by simp [gatherList]
  | .cons child rest, dest => by
    rw [gatherList, gatherList]
    rw [gatherList_acc p rest (gatherDescendants p child dest)]
    rw [gatherList_acc p rest (gatherDescendants p child [])]
    rw [gatherDescendants_acc p child dest]
    simp
end

mutual
theorem gatherDescendants_pred (p : TsNode → Bool) :
    ∀ (n : TsNode) (x : TsNode), x ∈ gatherDescendants p n [] → p x = true
  | .mk s f lab cs, x => by
    rw [gatherDescendants]
    by_cases hp : p (.mk s f lab cs) = true
    · rw [if_pos hp]
      intro hx
      simp at hx
      rw [hx]
      exact hp
    · rw [if_neg hp]
      exact gatherList_pred p cs x
theorem gatherList_pred (p : TsNode → Bool) :
    ∀ (cs : TsNodeList) (x : TsNode), x ∈ gatherList p cs [] → p x = true
  | .nil, x => by
    intro hx
    simp [gatherList] at hx
  | .cons child rest, x => by
    rw [gatherList]
    rw [gatherList_acc p rest (gatherDescendants p child [])]
    intro hx
    rcases List.mem_append.mp hx with hx1 | hx2
    · exact gatherDescendants_pred p child x hx1
    · exact gatherList_pred p rest x hx2
end

theorem gatherPathsL_shape (p : TsNode → Bool) :
    ∀ (cs : TsNodeList) (i0 : Nat) (q : List Nat), q ∈ gatherPathsL p cs i0 →
      ∃ i q', q = i :: q' ∧ i0 ≤ i
  | .nil, i0, q => by
    intro hq
    simp [gatherPathsL] at hq
  | .cons child rest, i0, q => by
    rw [gatherPathsL]
    intro hq
    rcases List.mem_append.mp hq with hq1 | hq2
    · rcases List.mem_map.mp hq1 with ⟨q', _, rfl⟩
      exact ⟨i0, q', rfl, le_refl i0⟩
    · rcases gatherPathsL_shape p rest (i0 + 1) q hq2 with ⟨i, q', rfl, hi⟩
      exact ⟨i, q', rfl, by omega⟩

mutual
theorem gatherDescendants_eq_paths (p : TsNode → Bool) :
    ∀ (n : TsNode),
      gatherDescendants p n [] = (gatherPaths p n).filterMap (subtreeAt n)
  | .mk s f lab cs => by
    rw [gatherDescendants, gatherPaths]
    by_cases hp : p (.mk s f lab cs) = true
    · rw [if_pos hp, if_pos hp]
      simp [subtreeAt]
    · rw [if_neg hp, if_neg hp]
      have hcongr : ∀ q ∈ gatherPathsL p cs 0,
          subtreeAt (.mk s f lab cs) q = subtreeAtF cs q := by
        intro q hq
        rcases gatherPathsL_shape p cs 0 q hq with ⟨i, q', rfl, _⟩
        rw [subtreeAt, subtreeAtF]
        rfl
      rw [List.filterMap_congr hcongr]
      exact gatherList_eq_paths p cs 0 cs (fun j => by simp)
theorem gatherList_eq_paths (p : TsNode → Bool) :
    ∀ (cs : TsNodeList) (i0 : Nat) (big : TsNodeList),
      (∀ j, nthChild big (i0 + j) = nthChild cs j) →
      gatherList p cs [] = (gatherPathsL p cs i0).filterMap (subtreeAtF big)
  | .nil, i0, big, hbig => by simp [gatherList, gatherPathsL]
  | .cons child rest, i0, big, hbig => by
    rw [gatherList, gatherPathsL]
    rw [gatherList_acc p rest (gatherDescendants p child [])]
    rw [List.filterMap_append]
    have hchild : nthChild big i0 = some child := by
      have := hbig 0
      simpa [nthChild] using this
    have hmap : (List.map (i0 :: ·) (gatherPaths p child)).filterMap (subtreeAtF big) =
        (gatherPaths p child).filterMap (subtreeAt child) := by
      rw [List.filterMap_map]
      apply List.filterMap_congr
      intro q _
      simp [Function.comp, subtreeAtF, hchild]
    rw [hmap, ← gatherDescendants_eq_paths p child]
    have hrest : gatherList p rest [] =
        (gatherPathsL p rest (i0 + 1)).filterMap (subtreeAtF big) :=
      gatherList_eq_paths p rest (i0 + 1) big (fun j => by
        have := hbig (j + 1)
        have harr : i0 + (j + 1) = i0 + 1 + j := by omega
        rw [harr] at this
        rw [this]
        rfl)
    rw [hrest]
end

mutual
theorem gatherPaths_pairwise (p : TsNode → Bool) :
    ∀ (n : TsNode),
      List.Pairwise (fun q r => ¬ q <+: r ∧ ¬ r <+: q) (gatherPaths p n)
  | .mk s f lab cs => by
    rw [gatherPaths]
    by_cases hp : p (.mk s f lab cs) = true
    · rw [if_pos hp]
      simp
    · rw [if_neg hp]
      exact gatherPathsL_pairwise p cs 0
theorem gatherPathsL_pairwise (p : TsNode → Bool) :
    ∀ (cs : TsNodeList) (i0 : Nat),
      List.Pairwise (fun q r => ¬ q <+: r ∧ ¬ r <+: q) (gatherPathsL p cs i0)
  | .nil, i0 => by simp [gatherPathsL]
  | .cons child rest, i0 => by
    rw [gatherPathsL]
    rw [List.pairwise_append]
    refine ⟨?_, gatherPathsL_pairwise p rest (i0 + 1), ?_⟩
    · rw [List.pairwise_map]
      apply List.Pairwise.imp ?_ (gatherPaths_pairwise p child)
      intro q r hqr
      exact ⟨fun hc => hqr.1 (List.cons_prefix_cons.mp hc).2,
        fun hc => hqr.2 (List.cons_prefix_cons.mp hc).2⟩
    · intro a ha b hb
      rcases List.mem_map.mp ha with ⟨q, _, rfl⟩
      rcases gatherPathsL_shape p rest (i0 + 1) b hb with ⟨j, r, rfl, hj⟩
      constructor
      · intro hc
        have := (List.cons_prefix_cons.mp hc).1
        omega
      · intro hc
        have := (List.cons_prefix_cons.mp hc).1
        omega
end

/-- C9: every node returned by `gatherDescendants(root, predicate, [])`
satisfies the predicate; the returned list is exactly the list of subtrees at
the positions collected by the specification traversal `gatherPaths`; and no
two collected positions are prefixes of one another — hence no returned node
is a descendant of another returned node, matches are non-nested, and a
matching root is returned alone. -/
theorem gatherDescendants_spec (p : TsNode → Bool) (n : TsNode) :
    (∀ x ∈ gatherDescendants p n [], p x = true) ∧
    gatherDescendants p n [] = (gatherPaths p n).filterMap (subtreeAt n) ∧
    List.Pairwise (fun q r => ¬ q <+: r ∧ ¬ r <+: q) (gatherPaths p n) :=
  ⟨fun x hx => gatherDescendants_pred p n x hx,
    gatherDescendants_eq_paths p n,
    gatherPaths_pairwise p n⟩

/-! ## The virtual `ts.System`
(`createVirtualTsSystem` in `language-server/test/plugins/typescript/test-utils.ts`)

Paths and file contents are `List Char`.  The external collaborators
`normalizePath ∘ toAbsolute` and `createGetCanonicalFileName(…)` (defined in
`src/utils` / used by `FileMap`, both outside the given sources) are abstract
functions `norm` and `canon`.

Modelled from the spec: `FileMap` (`src/lib/documents/fileCollection`, not
among the given sources) — "mapping from normalized absolute path to file
content …; keys case-normalized per host case-sensitivity setting".  It is
embedded as an association list whose keys are canonicalized on every access,
`keys()` returning the stored (canonical) keys in insertion order, `set`
replacing in place.

Callbacks are identified by numbers (JavaScript function identity), timers by
the numeric handle `setTimeout` returns (`nextT` is the fresh-handle
counter); `pending` holds the scheduled, not-yet-fired, not-yet-cancelled
timers in scheduling order and `log` the notifications delivered so far. -/

/-- A file path. -/
abbrev FPath := List Char

/-- File content. -/
abbrev Content := List Char

/-- `ts.FileWatcherEventKind`. -/
inductive EventKind where
  | Created
  | Changed
  | Deleted
deriving DecidableEq, Repr

/-- Association-list lookup by exact key. -/
def fmFind {α : Type} : List (FPath × α) → FPath → Option α
  | [], _ => none
  | (k', v) :: rest, k => if k' = k then some v else fmFind rest k

/-- Insert or replace, keeping the position of an existing key
(JavaScript `Map.set`). -/
def fmSetK {α : Type} : List (FPath × α) → FPath → α → List (FPath × α)
  | [], k, v => [(k, v)]
  | (k', v') :: rest, k, v =>
    if k' = k then (k, v) :: rest else (k', v') :: fmSetK rest k v

/-- Remove the entry of a key (JavaScript `Map.delete`). -/
def fmDeleteK {α : Type} : List (FPath × α) → FPath → List (FPath × α)
  | [], _ => []
  | (k', v') :: rest, k => if k' = k then rest else (k', v') :: fmDeleteK rest k

/-- `FileMap.get`: canonicalize, then look up. -/
def fmGet {α : Type} (canon : FPath → FPath) (m : List (FPath × α)) (p : FPath) :
    Option α :=
  fmFind m (canon p)

/-- `FileMap.set`: canonicalize, then insert or replace. -/
def fmSet {α : Type} (canon : FPath → FPath) (m : List (FPath × α)) (p : FPath)
    (v : α) : List (FPath × α) :=
  fmSetK m (canon p) v

/-- `FileMap.has`. -/
def fmHas {α : Type} (canon : FPath → FPath) (m : List (FPath × α)) (p : FPath) :
    Bool :=
  (fmGet canon m p).isSome

/-- `FileMap.delete`. -/
def fmDelete {α : Type} (canon : FPath → FPath) (m : List (FPath × α))
    (p : FPath) : List (FPath × α) :=
  fmDeleteK m (canon p)

/-- `FileMap.keys()` (the stored, canonical keys). -/
def fmKeys {α : Type} (m : List (FPath × α)) : List FPath :=
  m.map Prod.fst

/-- The state owned by one `createVirtualTsSystem` instance. -/
structure VSys where
  virtualFs : List (FPath × Content)
  watchers : List (FPath × List Nat)
  watchTimeout : List (FPath × List Nat)
  modifiedTime : List (FPath × Nat)
  pending : List (Nat × FPath × EventKind)
  log : List (Nat × FPath × EventKind)
  nextT : Nat
  clock : Nat

/-- The state of a freshly created virtual system. -/
def initSys : VSys := ⟨[], [], [], [], [], [], 0, 0⟩

/-- `triggerWatch(normalizedPath, kind)`: record the fresh timer handle under
the path and schedule the deferred notification. -/
def triggerWatch (canon : FPath → FPath) (st : VSys) (normalizedPath : FPath)
    (kind : EventKind) : VSys :=
  let timeoutsOfPath := (fmGet canon st.watchTimeout normalizedPath).getD []
  { st with
    watchTimeout := fmSet canon st.watchTimeout normalizedPath
      (timeoutsOfPath ++ [st.nextT]),
    pending := st.pending ++ [(st.nextT, normalizedPath, kind)],
    nextT := st.nextT + 1 }

/-- `writeFile(path, data)`. -/
def writeFile (canon norm : FPath → FPath) (st : VSys) (path : FPath)
    (data : Content) : VSys :=
  let normalizedPath := norm path
  let existsBefore := fmHas canon st.virtualFs normalizedPath
  let st1 := { st with
    virtualFs := fmSet canon st.virtualFs normalizedPath data,
    modifiedTime := fmSet canon st.modifiedTime normalizedPath st.clock,
    clock := st.clock + 1 }
  triggerWatch canon st1 normalizedPath
    (if existsBefore then EventKind.Changed else EventKind.Created)

/-- `readFile(path)`. -/
def readFile (canon norm : FPath → FPath) (st : VSys) (path : FPath) :
    Option Content :=
  fmGet canon st.virtualFs (norm path)

/-- `fileExists(path)`. -/
def fileExists (canon norm : FPath → FPath) (st : VSys) (path : FPath) : Bool :=
  fmHas canon st.virtualFs (norm path)

/-- `directoryExists(path)`: some stored file key starts with the
canonicalized, normalized query. -/
def directoryExists (canon norm : FPath → FPath) (st : VSys) (path : FPath) :
    Bool :=
  let normalizedPath := canon (norm path)
  (fmKeys st.virtualFs).any fun fileName => normalizedPath.isPrefixOf fileName

/-- `deleteFile(path)`. -/
def deleteFile (canon norm : FPath → FPath) (st : VSys) (path : FPath) : VSys :=
  let normalizedPath := norm path
  let existsBefore := fmHas canon st.virtualFs normalizedPath
  let st1 := { st with virtualFs := fmDelete canon st.virtualFs normalizedPath }
  if existsBefore then triggerWatch canon st1 normalizedPath EventKind.Deleted
  else st1

/-- `watchFile(path, callback)`: register the callback (create the bucket on
first use, then push). -/
def watchFile (canon norm : FPath → FPath) (st : VSys) (path : FPath)
    (callback : Nat) : VSys :=
  let normalizedPath := norm path
  let watchersOfPath := (fmGet canon st.watchers normalizedPath).getD []
  { st with
    watchers := fmSet canon st.watchers normalizedPath
      (watchersOfPath ++ [callback]) }

/-- The `close()` closure of the handle `watchFile(path, callback)` returned:
filter the bucket with `watcher === callback` (exactly as the source does),
then `clearTimeout` every handle recorded for the path. -/
def closeWatch (canon norm : FPath → FPath) (st : VSys) (path : FPath)
    (callback : Nat) : VSys :=
  let normalizedPath := norm path
  let st1 :=
    match fmGet canon st.watchers normalizedPath with
    | some watchersOfPath =>
      { st with
        watchers := fmSet canon st.watchers normalizedPath
          (watchersOfPath.filter fun watcher => watcher == callback) }
    | none => st
  match fmGet canon st1.watchTimeout normalizedPath with
  | some timeouts =>
    { st1 with pending := st1.pending.filter fun e => !(decide (e.1 ∈ timeouts)) }
  | none => st1

/-- Fire the scheduled timer with handle `t` (if still pending): deliver the
notification to every callback registered for the path at fire time, in
registration order.  Firing a cleared or already-fired handle is a no-op. -/
def runTimer (canon : FPath → FPath) (st : VSys) (t : Nat) : VSys :=
  match st.pending.find? (fun e => e.1 == t) with
  | none => st
  | some e =>
    { st with
      pending := st.pending.eraseP (fun e' => e'.1 == t),
      log := st.log ++ ((fmGet canon st.watchers e.2.1).getD []).map
        (fun callback => (callback, e.2.1, e.2.2)) }

/-- An operation issued against a virtual system. -/
inductive Op where
  | write (p : FPath) (s : Content)
  | delete (p : FPath)
  | watch (p : FPath) (c : Nat)
  | close (p : FPath) (c : Nat)
  | run (t : Nat)

/-- Apply one operation. -/
def applyOp (canon norm : FPath → FPath) (st : VSys) : Op → VSys
  | .write p s => writeFile canon norm st p s
  | .delete p => deleteFile canon norm st p
  | .watch p c => watchFile canon norm st p c
  | .close p c => closeWatch canon norm st p c
  | .run t => runTimer canon st t

/-- Apply a sequence of operations in order. -/
def applyOps (canon norm : FPath → FPath) (st : VSys) (ops : List Op) : VSys :=
  ops.foldl (applyOp canon norm) st

/-- `op` writes or deletes (a path canonically equal to) `p`. -/
def touches (canon norm : FPath → FPath) (op : Op) (p : FPath) : Prop :=
  match op with
  | .write q _ => canon (norm q) = canon (norm p)
  | .delete q => canon (norm q) = canon (norm p)
  | _ => False

/-! ### Association-list facts -/

theorem fmFind_setK_self {α : Type} (m : List (FPath × α)) (k : FPath) (v : α) :
    fmFind (fmSetK m k v) k = some v := by
  induction m with
  | nil => simp [fmSetK, fmFind]
  | cons e rest ih =>
    rcases e with ⟨k', v'⟩
    by_cases hk : k' = k
    · simp [fmSetK, hk, fmFind]
    · simp [fmSetK, hk, fmFind, ih]

theorem fmFind_setK_other {α : Type} (m : List (FPath × α)) (k k' : FPath)
    (v : α) (hne : k ≠ k') : fmFind (fmSetK m k v) k' = fmFind m k' := by
  induction m with
  | nil => simp [fmSetK, fmFind, hne]
  | cons e rest ih =>
    rcases e with ⟨k'', v''⟩
    by_cases hk : k'' = k
    · subst hk
      simp [fmSetK, fmFind, hne]
    · simp [fmSetK, hk, fmFind, ih]

theorem fmFind_deleteK_other {α : Type} (m : List (FPath × α)) (k k' : FPath)
    (hne : k ≠ k') : fmFind (fmDeleteK m k) k' = fmFind m k' := by
  induction m with
  | nil => simp [fmDeleteK]
  | cons e rest ih =>
    rcases e with ⟨k'', v''⟩
    by_cases hk : k'' = k
    · subst hk
      simp [fmDeleteK, fmFind, hne]
    · simp [fmDeleteK, hk, fmFind, ih]

theorem fmKeys_cons {α : Type} (k : FPath) (v : α) (rest : List (FPath × α)) :
    fmKeys ((k, v) :: rest) = k :: fmKeys rest := rfl

theorem fmFind_isSome_of_mem_keys {α : Type} (m : List (FPath × α)) (k : FPath)
    (h : k ∈ fmKeys m) : (fmFind m k).isSome = true := by
  induction m with
  | nil => simp [fmKeys] at h
  | cons e rest ih =>
    rcases e with ⟨k', v'⟩
    rw [fmKeys_cons] at h
    by_cases hk : k' = k
    · simp [fmFind, hk]
    · rcases List.mem_cons.mp h with h | h
      · exact absurd h.symm hk
      · simpa [fmFind, hk] using ih h

theorem mem_keys_of_fmFind_isSome {α : Type} (m : List (FPath × α)) (k : FPath)
    (h : (fmFind m k).isSome = true) : k ∈ fmKeys m := by
  induction m with
  | nil => simp [fmFind] at h
  | cons e rest ih =>
    rcases e with ⟨k', v'⟩
    rw [fmKeys_cons]
    by_cases hk : k' = k
    · exact List.mem_cons.mpr (Or.inl hk.symm)
    · simp only [fmFind, hk, if_false] at h
      exact List.mem_cons.mpr (Or.inr (ih h))

theorem fmKeys_setK_sub {α : Type} (m : List (FPath × α)) (k k' : FPath) (v : α)
    (h : k' ∈ fmKeys (fmSetK m k v)) : k' = k ∨ k' ∈ fmKeys m := by
  induction m with
  | nil =>
    rw [fmSetK, fmKeys_cons] at h
    rcases List.mem_cons.mp h with h | h
    · exact Or.inl h
    · simp [fmKeys] at h
  | cons e rest ih =>
    rcases e with ⟨k'', v''⟩
    by_cases hk : k'' = k
    · subst hk
      rw [fmSetK, if_pos rfl, fmKeys_cons] at h
      rw [fmKeys_cons]
      rcases List.mem_cons.mp h with h | h
      · exact Or.inl h
      · exact Or.inr (List.mem_cons.mpr (Or.inr h))
    · rw [fmSetK, if_neg hk, fmKeys_cons] at h
      rw [fmKeys_cons]
      rcases List.mem_cons.mp h with h | h
      · exact Or.inr (List.mem_cons.mpr (Or.inl h))
      · rcases ih h with h1 | h1
        · exact Or.inl h1
        · exact Or.inr (List.mem_cons.mpr (Or.inr h1))

theorem fmKeys_deleteK_sub {α : Type} (m : List (FPath × α)) (k k' : FPath)
    (h : k' ∈ fmKeys (fmDeleteK m k)) : k' ∈ fmKeys m := by
  induction m with
  | nil => simpa [fmDeleteK] using h
  | cons e rest ih =>
    rcases e with ⟨k'', v''⟩
    rw [fmKeys_cons]
    by_cases hk : k'' = k
    · subst hk
      rw [fmDeleteK, if_pos rfl] at h
      exact List.mem_cons.mpr (Or.inr h)
    · rw [fmDeleteK, if_neg hk, fmKeys_cons] at h
      rcases List.mem_cons.mp h with h | h
      · exact List.mem_cons.mpr (Or.inl h)
      · exact List.mem_cons.mpr (Or.inr (ih h))

instance instDecidableTouches (canon norm : FPath → FPath) (op : Op) (p : FPath) :
    Decidable (touches canon norm op p) :=
  match op with
  | .write q _ => inferInstanceAs (Decidable (canon (norm q) = canon (norm p)))
  | .delete q => inferInstanceAs (Decidable (canon (norm q) = canon (norm p)))
  | .watch _ _ => inferInstanceAs (Decidable False)
  | .close _ _ => inferInstanceAs (Decidable False)
  | .run _ => inferInstanceAs (Decidable False)

/-! ### C8: write-then-read round trip -/

theorem triggerWatch_virtualFs (canon : FPath → FPath) (st : VSys) (np : FPath)
    (kind : EventKind) : (triggerWatch canon st np kind).virtualFs = st.virtualFs :=
  rfl

theorem watchFile_virtualFs (canon norm : FPath → FPath) (st : VSys) (p : FPath)
    (c : Nat) : (watchFile canon norm st p c).virtualFs = st.virtualFs :=
  rfl

theorem closeWatch_virtualFs (canon norm : FPath → FPath) (st : VSys) (p : FPath)
    (c : Nat) : (closeWatch canon norm st p c).virtualFs = st.virtualFs := by
  rw [closeWatch]
  cases fmGet canon st.watchers (norm p) with
  | none =>
    cases fmGet canon st.watchTimeout (norm p) <;> rfl
  | some l =>
    cases fmGet canon st.watchTimeout (norm p) <;> rfl

theorem runTimer_virtualFs (canon : FPath → FPath) (st : VSys) (t : Nat) :
    (runTimer canon st t).virtualFs = st.virtualFs := by
  rw [runTimer]
  cases st.pending.find? (fun e => e.1 == t) <;> rfl

theorem readFile_writeFile_self (canon norm : FPath → FPath) (st : VSys)
    (p : FPath) (s : Content) :
    readFile canon norm (writeFile canon norm st p s) p = some s := by
  rw [readFile, writeFile, fmGet, triggerWatch_virtualFs]
  exact fmFind_setK_self _ _ _

theorem readFile_untouched (canon norm : FPath → FPath) (st : VSys) (p : FPath)
    (op : Op) (hop : ¬ touches canon norm op p) :
    readFile canon norm (applyOp canon norm st op) p = readFile canon norm st p := by
  cases op with
  | write q s =>
    have hne : canon (norm q) ≠ canon (norm p) := hop
    rw [applyOp, readFile, readFile, fmGet, fmGet, writeFile,
      triggerWatch_virtualFs]
    exact fmFind_setK_other _ _ _ _ hne
  | delete q =>
    have hne : canon (norm q) ≠ canon (norm p) := hop
    rw [applyOp, readFile, readFile, fmGet, fmGet, deleteFile]
    by_cases hex : fmHas canon st.virtualFs (norm q) = true
    · rw [if_pos hex, triggerWatch_virtualFs]
      exact fmFind_deleteK_other _ _ _ hne
    · rw [if_neg hex]
      exact fmFind_deleteK_other _ _ _ hne
  | watch q c =>
    rw [applyOp, readFile, readFile, fmGet, fmGet, watchFile_virtualFs]
  | close q c =>
    rw [applyOp, readFile, readFile, fmGet, fmGet, closeWatch_virtualFs]
  | run t =>
    rw [applyOp, readFile, readFile, fmGet, fmGet, runTimer_virtualFs]

/-- C8: after `writeFile(p, s)`, and any further operations none of which
writes or deletes (a path canonically equal to) `p`, `readFile(p)` returns
exactly the written content `s`. -/
theorem readFile_roundtrip (canon norm : FPath → FPath) (st : VSys) (p : FPath)
    (s : Content) (ops : List Op) (hops : ∀ op ∈ ops, ¬ touches canon norm op p) :
    readFile canon norm (applyOps canon norm (writeFile canon norm st p s) ops) p =
      some s := by
  suffices hgen : ∀ (ops : List Op) (st' : VSys),
      (∀ op ∈ ops, ¬ touches canon norm op p) →
      readFile canon norm st' p = some s →
      readFile canon norm (applyOps canon norm st' ops) p = some s by
    exact hgen ops _ hops (readFile_writeFile_self canon norm st p s)
  intro ops
  induction ops with
  | nil => intro st' _ h; exact h
  | cons op rest ih =>
    intro st' hall h
    rw [applyOps, List.foldl_cons]
    have h1 : readFile canon norm (applyOp canon norm st' op) p = some s := by
      rw [readFile_untouched canon norm st' p op (hall op (List.mem_cons_self op rest))]
      exact h
    exact ih (applyOp canon norm st' op) (fun o ho => hall o (List.mem_cons_of_mem op ho)) h1

/-- C8 witness: the round trip applied at a concrete state and trace. -/
theorem readFile_roundtrip_witness :
    (∀ op ∈ ([Op.watch ['b'] 0, Op.run 0] : List Op), ¬ touches id id op ['a']) ∧
    readFile id id
      (applyOps id id (writeFile id id initSys ['a'] ['x'])
        [Op.watch ['b'] 0, Op.run 0]) ['a'] = some ['x'] :=
  ⟨by decide, readFile_roundtrip id id initSys ['a'] ['x']
    [Op.watch ['b'] 0, Op.run 0] (by decide)⟩

/-! ### C4: notification kinds -/

theorem writeFile_pending (canon norm : FPath → FPath) (st : VSys) (p : FPath)
    (s : Content) :
    (writeFile canon norm st p s).pending = st.pending ++
      [(st.nextT, norm p,
        if fileExists canon norm st p then EventKind.Changed else EventKind.Created)] :=
  rfl

theorem deleteFile_of_not_exists (canon norm : FPath → FPath) (st : VSys)
    (p : FPath) (h : fileExists canon norm st p = false) :
    (deleteFile canon norm st p).pending = st.pending ∧
    (deleteFile canon norm st p).log = st.log ∧
    (deleteFile canon norm st p).watchTimeout = st.watchTimeout := by
  rw [deleteFile]
  have hh : fmHas canon st.virtualFs (norm p) = false := h
  rw [hh]
  exact ⟨rfl, rfl, rfl⟩

theorem deleteFile_pending_of_exists (canon norm : FPath → FPath) (st : VSys)
    (p : FPath) (h : fileExists canon norm st p = true) :
    (deleteFile canon norm st p).pending =
      st.pending ++ [(st.nextT, norm p, EventKind.Deleted)] := by
  rw [deleteFile]
  have hh : fmHas canon st.virtualFs (norm p) = true := h
  rw [hh]
  rfl

theorem find?_timer_append (l : List (Nat × FPath × EventKind)) (t : Nat)
    (np : FPath) (kind : EventKind) (h : ∀ e ∈ l, e.1 ≠ t) :
    (l ++ [(t, np, kind)]).find? (fun e => e.1 == t) = some (t, np, kind) := by
  induction l with
  | nil => simp [List.find?]
  | cons e rest ih =>
    have he : (e.1 == t) = false := by
      have := h e (List.mem_cons_self e rest)
      simpa using this
    rw [List.cons_append]
    simp only [List.find?, he]
    exact ih fun e' he' => h e' (List.mem_cons_of_mem _ he')

theorem runTimer_log_of_last (canon : FPath → FPath) (st' : VSys) (t : Nat)
    (np : FPath) (kind : EventKind) (l : List (Nat × FPath × EventKind))
    (hp : st'.pending = l ++ [(t, np, kind)]) (hfresh : ∀ e ∈ l, e.1 ≠ t) :
    (runTimer canon st' t).log = st'.log ++
      ((fmGet canon st'.watchers np).getD []).map (fun c => (c, np, kind)) := by
  rw [runTimer, hp, find?_timer_append l t np kind hfresh]

/-- C4: with the virtual system in any state, a `writeFile` on a path that
does not yet exist schedules (and, when its timer fires, delivers to the
path's watchers) a `Created` notification; a `writeFile` on an existing path
schedules and delivers `Changed`; a `deleteFile` on an existing path
schedules and delivers `Deleted`; and a `deleteFile` on a non-existent path
schedules and delivers nothing at all. -/
theorem virtualTsSystem_events (canon norm : FPath → FPath) (st : VSys)
    (p : FPath) (s : Content) :
    (fileExists canon norm st p = false →
      (writeFile canon norm st p s).pending =
        st.pending ++ [(st.nextT, norm p, EventKind.Created)]) ∧
    (fileExists canon norm st p = true →
      (writeFile canon norm st p s).pending =
        st.pending ++ [(st.nextT, norm p, EventKind.Changed)]) ∧
    (fileExists canon norm st p = true →
      (deleteFile canon norm st p).pending =
        st.pending ++ [(st.nextT, norm p, EventKind.Deleted)]) ∧
    (fileExists canon norm st p = false →
      (deleteFile canon norm st p).pending = st.pending ∧
      (deleteFile canon norm st p).log = st.log) ∧
    ((∀ e ∈ st.pending, e.1 ≠ st.nextT) →
      (fileExists canon norm st p = false →
        (runTimer canon (writeFile canon norm st p s) st.nextT).log =
          st.log ++ ((fmGet canon st.watchers (norm p)).getD []).map
            (fun c => (c, norm p, EventKind.Created))) ∧
      (fileExists canon norm st p = true →
        (runTimer canon (writeFile canon norm st p s) st.nextT).log =
          st.log ++ ((fmGet canon st.watchers (norm p)).getD []).map
            (fun c => (c, norm p, EventKind.Changed))) ∧
      (fileExists canon norm st p = true →
        (runTimer canon (deleteFile canon norm st p) st.nextT).log =
          st.log ++ ((fmGet canon st.watchers (norm p)).getD []).map
            (fun c => (c, norm p, EventKind.Deleted)))) := by
  refine ⟨?_, ?_, ?_, ?_, ?_⟩
  · intro h
    rw [writeFile_pending, h]
    rfl
  · intro h
    rw [writeFile_pending, h]
    rfl
  · exact deleteFile_pending_of_exists canon norm st p
  · intro h
    exact ⟨(deleteFile_of_not_exists canon norm st p h).1,
      (deleteFile_of_not_exists canon norm st p h).2.1⟩
  · intro hfresh
    refine ⟨?_, ?_, ?_⟩
    · intro h
      have hp : (writeFile canon norm st p s).pending =
          st.pending ++ [(st.nextT, norm p, EventKind.Created)] := by
        rw [writeFile_pending, h]
        rfl
      exact runTimer_log_of_last canon _ _ _ _ _ hp hfresh
    · intro h
      have hp : (writeFile canon norm st p s).pending =
          st.pending ++ [(st.nextT, norm p, EventKind.Changed)] := by
        rw [writeFile_pending, h]
        rfl
      exact runTimer_log_of_last canon _ _ _ _ _ hp hfresh
    · intro h
      have hp : (deleteFile canon norm st p).pending =
          st.pending ++ [(st.nextT, norm p, EventKind.Deleted)] :=
        deleteFile_pending_of_exists canon norm st p h
      have hlog : (deleteFile canon norm st p).log = st.log := by
        rw [deleteFile]
        cases hh : fmHas canon st.virtualFs (norm p) <;> rfl
      have hw : (deleteFile canon norm st p).watchers = st.watchers := by
        rw [deleteFile]
        cases hh : fmHas canon st.virtualFs (norm p) <;> rfl
      have h2 := runTimer_log_of_last canon _ _ _ _ _ hp hfresh
      rw [hlog, hw] at h2
      exact h2

/-! ### C1 and C3: watcher disposal -/

/-- Path used in the concrete watcher scenarios. -/
def pA : FPath := ['a']

/-- Two watchers (callbacks `1` and `2`) registered on the same path of a
fresh virtual system (with `canon = norm = id`). -/
def c1State : VSys := watchFile id id (watchFile id id initSys pA 1) pA 2

/-- C1: evaluation of the embedded `close()` at the failing input.  The
source filters the bucket with `watcher === callback`, which keeps exactly
the disposed callback and removes every other watcher: after disposing
callback `1`, the registry holds `[1]` instead of `[2]`, and a later write
notifies the disposed callback `1` (callback `2` receives nothing). -/
theorem closeWatch_eval :
    c1State.watchers = [(pA, [1, 2])] ∧
    (closeWatch id id c1State pA 1).watchers = [(pA, [1])] ∧
    (runTimer id (writeFile id id (closeWatch id id c1State pA 1) pA ['x']) 0).log =
      [(1, pA, EventKind.Created)] := by
  refine ⟨by decide, by decide, by decide⟩

/-- `c1State` after a write on `pA` scheduled a `Created` notification
(timer handle `0`). -/
def c3Sched : VSys := writeFile id id c1State pA ['x']

/-- `c3Sched` after watcher `1`'s handle was closed before the timer fired. -/
def c3Closed : VSys := closeWatch id id c3Sched pA 1

/-- C3 counterexample: without the disposal both watchers would receive the
`Created` notification scheduled by the write; disposing watcher `1` before
the timer fires clears the pending timer for the path, so the never-disposed
watcher `2` receives nothing either — disposing `a` does suppress delivery
to `b`, contrary to the claim. -/
theorem closeWatch_cancels_cex :
    (runTimer id c3Sched 0).log =
      [(1, pA, EventKind.Created), (2, pA, EventKind.Created)] ∧
    (runTimer id c3Closed 0).log = [] ∧
    ¬ (2, pA, EventKind.Created) ∈ (runTimer id c3Closed 0).log := by
  refine ⟨by decide, by decide, by decide⟩

theorem runTimer_not_pending (canon : FPath → FPath) (st : VSys) (t : Nat)
    (h : ∀ e ∈ st.pending, e.1 ≠ t) : runTimer canon st t = st := by
  rw [runTimer]
  have hnone : st.pending.find? (fun e => e.1 == t) = none := by
    rw [List.find?_eq_none]
    intro e he
    simpa using h e he
  rw [hnone]

theorem closeWatch_pending (canon norm : FPath → FPath) (st : VSys) (p : FPath)
    (c : Nat) (ts : List Nat)
    (hT : fmGet canon st.watchTimeout (norm p) = some ts) :
    (closeWatch canon norm st p c).pending =
      st.pending.filter (fun e => !(decide (e.1 ∈ ts))) := by
  rw [closeWatch]
  cases hW : fmGet canon st.watchers (norm p) with
  | none => simp only [hW, hT]
  | some l => simp only [hW, hT]

/-- C3 (amended): disposing a watcher's handle for `p` clears every timer
handle recorded for `p`, so firing any notification timer that was scheduled
for `p` before the disposal is a no-op afterwards: neither the disposed
watcher nor any other watcher of `p` receives the cancelled notifications;
a watcher receives exactly the notifications whose timers fire while it is
registered. -/
theorem closeWatch_cancels_pending (canon norm : FPath → FPath) (st : VSys)
    (p : FPath) (c t : Nat)
    (ht : t ∈ (fmGet canon st.watchTimeout (norm p)).getD []) :
    runTimer canon (closeWatch canon norm st p c) t = closeWatch canon norm st p c := by
  have hsome : ∃ ts, fmGet canon st.watchTimeout (norm p) = some ts ∧ t ∈ ts := by
    cases hT : fmGet canon st.watchTimeout (norm p) with
    | none =>
      rw [hT] at ht
      simp at ht
    | some ts =>
      rw [hT] at ht
      exact ⟨ts, rfl, by simpa using ht⟩
  rcases hsome with ⟨ts, hT, hts⟩
  apply runTimer_not_pending
  rw [closeWatch_pending canon norm st p c ts hT]
  intro e he het
  rw [List.mem_filter] at he
  have hnot : ¬ e.1 ∈ ts := by simpa using he.2
  rw [het] at hnot
  exact hnot hts

/-- C3 witness: the amended theorem applied at the concrete scenario. -/
theorem closeWatch_cancels_pending_witness :
    0 ∈ (fmGet id c3Sched.watchTimeout (id pA)).getD [] ∧
    runTimer id (closeWatch id id c3Sched pA 1) 0 = closeWatch id id c3Sched pA 1 :=
  ⟨by decide, closeWatch_cancels_pending id id c3Sched pA 1 0 (by decide)⟩

/-- C4 witness: the events theorem applied at the concrete two-watcher state:
the first write schedules `Created` and firing its timer notifies both
watchers. -/
theorem virtualTsSystem_events_witness :
    fileExists id id c1State pA = false ∧
    (runTimer id (writeFile id id c1State pA ['x']) c1State.nextT).log =
      c1State.log ++ ((fmGet id c1State.watchers (id pA)).getD []).map
        (fun c => (c, id pA, EventKind.Created)) :=
  ⟨by decide,
    ((virtualTsSystem_events id id c1State pA ['x']).2.2.2.2 (by decide)).1 (by decide)⟩

/-! ### C6: implicit directories -/

/-- Some operation of the trace wrote `p`. -/
def writtenIn (ops : List Op) (p : FPath) : Prop :=
  ∃ s, Op.write p s ∈ ops

theorem deleteFile_virtualFs (canon norm : FPath → FPath) (st : VSys)
    (q : FPath) :
    (deleteFile canon norm st q).virtualFs =
      fmDeleteK st.virtualFs (canon (norm q)) := by
  rw [deleteFile]
  cases fmHas canon st.virtualFs (norm q) <;> rfl

theorem applyOps_keys (canon norm : FPath → FPath) :
    ∀ (ops : List Op) (st : VSys) (k : FPath),
      k ∈ fmKeys (applyOps canon norm st ops).virtualFs →
      k ∈ fmKeys st.virtualFs ∨ ∃ p s, Op.write p s ∈ ops ∧ k = canon (norm p) := by
  intro ops
  induction ops with
  | nil =>
    intro st k h
    exact Or.inl h
  | cons op rest ih =>
    intro st k h
    rw [applyOps, List.foldl_cons] at h
    rcases ih (applyOp canon norm st op) k h with h1 | ⟨p, s, hmem, hk⟩
    · cases op with
      | write q s' =>
        have hfs : (applyOp canon norm st (Op.write q s')).virtualFs =
            fmSetK st.virtualFs (canon (norm q)) s' := rfl
        rw [hfs] at h1
        rcases fmKeys_setK_sub _ _ _ _ h1 with h2 | h2
        · exact Or.inr ⟨q, s', List.mem_cons_self _ _, h2⟩
        · exact Or.inl h2
      | delete q =>
        rw [applyOp, deleteFile_virtualFs] at h1
        exact Or.inl (fmKeys_deleteK_sub _ _ _ h1)
      | watch q c =>
        rw [applyOp, watchFile_virtualFs] at h1
        exact Or.inl h1
      | close q c =>
        rw [applyOp, closeWatch_virtualFs] at h1
        exact Or.inl h1
      | run t =>
        rw [applyOp, runTimer_virtualFs] at h1
        exact Or.inl h1
    · exact Or.inr ⟨p, s, List.mem_cons_of_mem _ hmem, hk⟩

/-- C6: after any sequence of operations on a fresh virtual system,
`directoryExists(d)` is `true` exactly when some path written by the trace is
still stored and its stored (canonicalized, normalized) key has the
canonicalized, normalized form of `d` as a prefix. -/
theorem directoryExists_iff (canon norm : FPath → FPath) (ops : List Op)
    (d : FPath) :
    directoryExists canon norm (applyOps canon norm initSys ops) d = true ↔
      ∃ p, writtenIn ops p ∧
        fileExists canon norm (applyOps canon norm initSys ops) p = true ∧
        canon (norm d) <+: canon (norm p) := by
  simp only [directoryExists]
  rw [List.any_eq_true]
  constructor
  · rintro ⟨k, hk, hpre⟩
    rcases applyOps_keys canon norm ops initSys k hk with h1 | ⟨p, s, hmem, rfl⟩
    · simp [initSys, fmKeys] at h1
    · refine ⟨p, ⟨s, hmem⟩, ?_, ?_⟩
      · rw [fileExists, fmHas, fmGet]
        exact fmFind_isSome_of_mem_keys _ _ hk
      · exact List.isPrefixOf_iff_prefix.mp hpre
  · rintro ⟨p, hw, hex, hpre⟩
    refine ⟨canon (norm p), ?_, ?_⟩
    · rw [fileExists, fmHas, fmGet] at hex
      exact mem_keys_of_fmFind_isSome _ _ hex
    · exact List.isPrefixOf_iff_prefix.mpr hpre

/-! ## `hasNodeModule` (`typescript-plugin/src/utils.ts`) -/

/-- The resolver error code distinguishing a restricted export map. -/
def errPackagePathNotExported : List Char :=
  "ERR_PACKAGE_PATH_NOT_EXPORTED".toList

/-- Outcome of a module resolution attempt. -/
inductive ResolveResult where
  | ok (resolved : List Char)
  | err (code : List Char)

/-- `hasNodeModule(compilerOptions, module)`.  The `try`/`catch` around
Node's `require.resolve(module, { paths: [configFilePath] })` — an external
API — is modelled by an abstract resolver returning either the resolved path
(a truthy value, so the function returns true) or a thrown error's code,
which the `catch` block compares against `ERR_PACKAGE_PATH_NOT_EXPORTED`.
When `compilerOptions.configFilePath` is not a string the short-circuit `||`
yields true without resolving. -/
def hasNodeModule (resolve : List Char → List Char → ResolveResult)
    (configFilePath : Option (List Char)) (moduleName : List Char) : Bool :=
  match configFilePath with
  | none => true
  | some cfg =>
    match resolve moduleName cfg with
    | .ok _ => true
    | .err code => decide (code = errPackagePathNotExported)

/-- C7: `hasNodeModule` is true when the module resolves, true when
resolution fails with the restricted-export-map code
`ERR_PACKAGE_PATH_NOT_EXPORTED`, false when it fails with any other code
(module genuinely absent), and true when no config path string is available;
the function is total (never throws). -/
theorem hasNodeModule_spec (resolve : List Char → List Char → ResolveResult)
    (cfg m : List Char) :
    (∀ r, resolve m cfg = .ok r → hasNodeModule resolve (some cfg) m = true) ∧
    (resolve m cfg = .err errPackagePathNotExported →
      hasNodeModule resolve (some cfg) m = true) ∧
    (∀ code, resolve m cfg = .err code → code ≠ errPackagePathNotExported →
      hasNodeModule resolve (some cfg) m = false) ∧
    hasNodeModule resolve none m = true := by
  refine ⟨?_, ?_, ?_, rfl⟩
  · intro r h
    simp only [hasNodeModule, h]
  · intro h
    simp only [hasNodeModule, h]
    simp
  · intro code h hne
    simp only [hasNodeModule, h]
    simpa using hne

/-- Resolver that always succeeds. -/
def resOk : List Char → List Char → ResolveResult := fun _ _ => .ok ['p']

/-- Resolver that always fails with the restricted-export-map code. -/
def resErrExp : List Char → List Char → ResolveResult :=
  fun _ _ => .err errPackagePathNotExported

/-- Resolver that always fails with `MODULE_NOT_FOUND`. -/
def resErrMissing : List Char → List Char → ResolveResult :=
  fun _ _ => .err ("MODULE_NOT_FOUND".toList)

/-- C7 witness: the theorem applied at three concrete resolvers. -/
theorem hasNodeModule_spec_witness :
    hasNodeModule resOk (some ['c']) ['m'] = true ∧
    hasNodeModule resErrExp (some ['c']) ['m'] = true ∧
    hasNodeModule resErrMissing (some ['c']) ['m'] = false :=
  ⟨(hasNodeModule_spec resOk ['c'] ['m']).1 ['p'] rfl,
    (hasNodeModule_spec resErrExp ['c'] ['m']).2.1 rfl,
    (hasNodeModule_spec resErrMissing ['c'] ['m']).2.2.1 ("MODULE_NOT_FOUND".toList)
      rfl (by decide)⟩

/-- Predicate matching nodes that start at offset 5 (used by the C9
witness). -/
def pxCE : TsNode → Bool := fun n => decide (n.start = 5)

/-- C9 witness: on the concrete tree, the outer matching node is collected
alone (its matching child `ceInner` is not), and the collected node satisfies
the predicate via the theorem. -/
theorem gatherDescendants_spec_witness :
    gatherDescendants pxCE ceRoot [] = [ceMid] ∧ pxCE ceMid = true :=
  ⟨rfl, (gatherDescendants_spec pxCE ceRoot).1 ceMid (List.mem_singleton.mpr rfl)⟩

/-- C6 witness: the characterization applied at a one-write trace. -/
theorem directoryExists_iff_witness :
    directoryExists id id (applyOps id id initSys [Op.write ['a', 'b'] ['x']])
      ['a'] = true :=
  (directoryExists_iff id id [Op.write ['a', 'b'] ['x']] ['a']).mpr
    ⟨['a', 'b'], ⟨['x'], List.mem_singleton.mpr rfl⟩, by decide, by decide⟩
